import Mathlib

/-!
Verification of the self-consistency voting / answer-normalization layer of
the COD-V2 chat client (`netlify/functions/api-proxy.js`, client script part).

The JavaScript string pipeline is embedded over `List Char`:
  * `normalizeAnswer` (source lines 652-672): filler-phrase removal
    (`replace(/^(the answer is|...):\s*/i, "")`), unit removal
    (`replace(/\b(dollars|...|\$|%|°C|°F)\b/gi, "")` with JavaScript
    word-boundary semantics), punctuation/whitespace collapsing
    (`replace(/[.,;:!\s]+/g, " ").trim()`) and ASCII lowercasing.
  * the self-consistency loop of `sendMessage` (source lines 740-905):
    per-path results, vote tallying into a plain JS object, winner pick by
    `Object.entries` enumeration order, `bestResponse` selection and the
    "No valid responses" fallback.
Regex scanning is modelled left-to-right with first-alternative-wins, exactly
as the JavaScript engine processes these patterns.
-/

namespace CODV2

/-- JavaScript `\w` word characters: ASCII letters, digits and underscore. -/
def isWordChar (c : Char) : Bool :=
  (48 ≤ c.toNat && c.toNat ≤ 57) || (65 ≤ c.toNat && c.toNat ≤ 90) ||
    (97 ≤ c.toNat && c.toNat ≤ 122) || c.toNat = 95

/-- JavaScript `\s` / `trim()` whitespace (ASCII part plus NBSP, the only
whitespace code points the embedded strings use). -/
def isJsSpace (c : Char) : Bool :=
  c.toNat = 32 || c.toNat = 9 || c.toNat = 10 || c.toNat = 13 ||
    c.toNat = 11 || c.toNat = 12 || c.toNat = 160

/-- The characters of the source's collapsing class `[.,;:!\s]`. -/
def isPunctSpace (c : Char) : Bool :=
  c.toNat = 46 || c.toNat = 44 || c.toNat = 59 || c.toNat = 58 ||
    c.toNat = 33 || isJsSpace c

/-- The ASCII uppercase-to-lowercase table. -/
def ucMap : List (Char × Char) :=
  [('A', 'a'), ('B', 'b'), ('C', 'c'), ('D', 'd'), ('E', 'e'), ('F', 'f'),
   ('G', 'g'), ('H', 'h'), ('I', 'i'), ('J', 'j'), ('K', 'k'), ('L', 'l'),
   ('M', 'm'), ('N', 'n'), ('O', 'o'), ('P', 'p'), ('Q', 'q'), ('R', 'r'),
   ('S', 's'), ('T', 't'), ('U', 'u'), ('V', 'v'), ('W', 'w'), ('X', 'x'),
   ('Y', 'y'), ('Z', 'z')]

/-- ASCII lowercasing, as performed by `toLowerCase()` on the ASCII range
(all phrase and unit comparisons in the source are ASCII). -/
def jsToLower (c : Char) : Char :=
  ((ucMap.find? fun p => p.1 = c).map Prod.snd).getD c

/-- Case-insensitive literal match of the pattern `p` (stored lowercased)
against the front of `s`; returns the remainder on success. -/
def startsWithCI : List Char → List Char → Option (List Char)
  | rest, [] => some rest
  | [], _ :: _ => none
  | c :: cs, p :: ps => if jsToLower c = p then startsWithCI cs ps else none

/-- Substring test, the semantics of JavaScript `String.prototype.includes`. -/
def containsSub : List Char → List Char → Bool
  | [], needle => needle.isEmpty
  | c :: t, needle => needle.isPrefixOf (c :: t) || containsSub t needle

/-- Remove trailing JavaScript whitespace. -/
def jsTrimRight : List Char → List Char
  | [] => []
  | c :: cs =>
    match jsTrimRight cs with
    | [] => if isJsSpace c then [] else [c]
    | r => c :: r

/-- JavaScript `trim()`. -/
def jsTrim (s : List Char) : List Char :=
  jsTrimRight (s.dropWhile isJsSpace)

/-- `String.trim()` on `String`. -/
def jsTrimS (s : String) : String := ⟨jsTrim s.data⟩

/-- One pass of `replace(/[.,;:!\s]+/g, " ")`: each maximal run of
punctuation/whitespace becomes a single space.  The boolean state records
whether the scanner is inside a run that has already emitted its space. -/
def collapseAux : Bool → List Char → List Char
  | _, [] => []
  | inRun, c :: cs =>
    if isPunctSpace c then
      if inRun then collapseAux true cs else ' ' :: collapseAux true cs
    else c :: collapseAux false cs

/-- The filler phrases of the source's prefix regex, in alternation order
(source line 654); the regex requires a colon directly after the phrase. -/
def fillerPhrases : List (List Char) :=
  [("the answer is").data, ("therefore").data, ("thus").data, ("so").data,
   ("hence").data, ("the result is").data, ("we get").data,
   ("we find that").data, ("the final answer is").data, ("the value is").data,
   ("the solution is").data]

/-- Try the filler alternatives in order: a phrase fires only when it is a
case-insensitive prefix and the next character is a colon; the colon and the
following whitespace run (`\s*`) are consumed. -/
def stripFillerAux : List (List Char) → List Char → Option (List Char)
  | [], _ => none
  | p :: ps, s =>
    match startsWithCI s p with
    | some (c :: rest) =>
      if c = ':' then some (rest.dropWhile isJsSpace) else stripFillerAux ps s
    | _ => stripFillerAux ps s

/-- `replace(/^(the answer is|...):\s*/i, "")` (source line 654). -/
def stripFiller (s : List Char) : List Char :=
  (stripFillerAux fillerPhrases s).getD s

/-- The unit alternatives of the source's unit regex, lowercased, in
alternation order (source line 657). -/
def unitAlts : List (List Char) :=
  [("dollars").data, ("inches").data, ("feet").data, ("meters").data,
   ("pounds").data, ("kg").data, ("miles").data, ("km").data,
   ("years").data, ("days").data, ("hours").data, ("minutes").data,
   ("seconds").data, ("percent").data, ("degrees").data, ("watts").data,
   ("volts").data, ("amps").data, ("$").data, ("%").data,
   ("°c").data, ("°f").data]

/-- Word-boundary test between two (optional) adjacent characters,
JavaScript `\b`: positions outside the string count as non-word. -/
def wordB (a b : Option Char) : Bool :=
  (match a with | some c => isWordChar c | none => false) !=
    (match b with | some c => isWordChar c | none => false)

/-- Try to match one unit alternative at the current position (`prev` is the
original character just before it).  Returns the length of the match.  The
engine tries the alternatives in order and requires `\b` on both sides. -/
def unitMatchAux (prev : Option Char) (s : List Char) :
    List (List Char) → Option Nat
  | [] => none
  | u :: us =>
    if (s.take u.length).map jsToLower = u
        && wordB prev s.head?
        && wordB ((s.take u.length).getLast?) ((s.drop u.length).head?)
    then some u.length
    else unitMatchAux prev s us

/-- Global unit removal `replace(/\b(units)\b/gi, "")`, scanning left to
right; after a match the scan resumes right after it (matches found in the
original string do not overlap and replaced text is not rescanned).  `fuel`
is the length of the remaining input, which bounds the number of steps. -/
def removeUnitsFuel : Nat → Option Char → List Char → List Char
  | 0, _, s => s
  | _ + 1, _, [] => []
  | fuel + 1, prev, c :: cs =>
    match unitMatchAux prev (c :: cs) unitAlts with
    | some n =>
      removeUnitsFuel fuel (((c :: cs).take n).getLast?) (cs.drop (n - 1))
    | none => c :: removeUnitsFuel fuel (some c) cs

/-- Unit removal over a whole string (scan starts before the first char). -/
def removeUnits (s : List Char) : List Char :=
  removeUnitsFuel s.length none s

/-- `normalizeAnswer` (source lines 652-672) over `List Char`: strip a filler
prefix, remove unit tokens, collapse punctuation/whitespace runs to single
spaces, trim, lowercase. -/
def normalizeAnswerL (s : List Char) : List Char :=
  (jsTrim (collapseAux false (removeUnits (stripFiller s)))).map jsToLower

/-- `normalizeAnswer` on `String`. -/
def normalizeAnswer (s : String) : String := ⟨normalizeAnswerL s.data⟩

/-- The thinking/answer split of one completion.  Word counts are not needed
by any claim and are omitted. -/
structure ProcessedMessage where
  thinking : Option String
  answer : Option String
deriving DecidableEq

/-- Split at the first occurrence of the `####` separator marker: text
before the marker and text after it. -/
def splitAtMarker : List Char → Option (List Char × List Char)
  | [] => none
  | c :: cs =>
    if ['#', '#', '#', '#'].isPrefixOf (c :: cs) then
      some ([], (c :: cs).drop 4)
    else
      match splitAtMarker cs with
      | some (pre, post) => some (c :: pre, post)
      | none => none

/-- Modelled from the spec: `processBotMessage` for the `cod` reasoning
method is not part of the sources (only its call sites are); per spec §4.1
the raw text is split into thinking and answer at the first occurrence of
the `####` marker, the answer region is trimmed, a missing marker makes the
entire text the answer with no thinking segment, and empty raw text yields
both fields null. -/
def processBotMessageCod (raw : String) : ProcessedMessage :=
  if raw = "" then ⟨none, none⟩
  else
    match splitAtMarker raw.data with
    | some (pre, post) => ⟨some ⟨pre⟩, some (jsTrimS ⟨post⟩)⟩
    | none => ⟨none, some raw⟩

/-- Outcome of one generation path, as seen by the voting loop:
`some s` means the fetch succeeded and `data.choices[0].message.content`
was the string `s`; `none` means the path threw (network/HTTP error) or the
content field was absent.  A returned empty string is falsy in JavaScript
and is treated exactly like an absent content below, as in the source. -/
abbrev PathResult := Option String

/-- The `responses` array of the voting loop (source lines 779-781): each
truthy `botReply` is trimmed and pushed; failed paths push nothing. -/
def responsesOf (results : List PathResult) : List String :=
  results.filterMap fun r =>
    match r with
    | some s => if s = "" then none else some (jsTrimS s)
    | none => none

/-- `processed.answer ? processed.answer.trim() : ""` (source line 785). -/
def finalAnswerOf (trimmedReply : String) : String :=
  match (processBotMessageCod trimmedReply).answer with
  | some a => if a = "" then ("") else jsTrimS a
  | none => ("")

/-- `answers[normalizedAnswer] = (answers[normalizedAnswer] || 0) + 1`
(source line 791): the tally as an association list in key-creation order. -/
def bump (t : List (String × Nat)) (k : String) : List (String × Nat) :=
  if t.any (fun p => p.1 = k) then
    t.map fun p => if p.1 = k then (p.1, p.2 + 1) else p
  else t ++ [(k, 1)]

/-- The vote tally built by the loop (source lines 787-792): every response
with a non-empty extracted answer casts one vote for its normalized key. -/
def tallyOf (responses : List String) : List (String × Nat) :=
  responses.foldl
    (fun t r =>
      let fa := finalAnswerOf r
      if fa = "" then t else bump t (normalizeAnswer fa))
    []

/-- Numeric value of a digit string. -/
def digitsVal (s : String) : Nat :=
  s.data.foldl (fun n c => n * 10 + (c.toNat - 48)) 0

/-- Whether a string is a canonical ECMAScript array-index key: a digit
string with no leading zero (other than `"0"` itself) whose value is below
2^32 - 1.  Such keys enumerate before all other keys, in ascending numeric
order. -/
def isCanonicalIndex (s : String) : Bool :=
  !s.data.isEmpty && s.data.all (fun c => c.isDigit) &&
    (s = "0" || s.data.head? ≠ some '0') && digitsVal s < 4294967295

/-- Insert into a list sorted by ascending numeric key value. -/
def insertAsc (p : String × Nat) : List (String × Nat) → List (String × Nat)
  | [] => [p]
  | q :: qs =>
    if digitsVal p.1 ≤ digitsVal q.1 then p :: q :: qs else q :: insertAsc p qs

/-- Sort by ascending numeric key value (insertion sort). -/
def sortAsc : List (String × Nat) → List (String × Nat)
  | [] => []
  | p :: ps => insertAsc p (sortAsc ps)

/-- `Object.entries` enumeration order on the tally object: canonical
array-index keys first in ascending numeric order, then the remaining keys
in insertion order. -/
def jsEntries (t : List (String × Nat)) : List (String × Nat) :=
  sortAsc (t.filter fun p => isCanonicalIndex p.1) ++
    t.filter fun p => !isCanonicalIndex p.1

/-- The winner scan (source lines 800-809): start from `("", 0)` and take
each entry whose count strictly exceeds the best so far. -/
def pickWinner (entries : List (String × Nat)) : String × Nat :=
  entries.foldl (fun acc e => if e.2 > acc.2 then e else acc) (("", 0))

/-- `bestResponse` selection (source lines 814-826): the first response
whose full text contains the winning key as a substring; if that leaves an
empty (falsy) value, fall back to the first response when one exists. -/
def bestResponse (responses : List String) (winner : String) : String :=
  let found := (responses.find? fun r => containsSub r.data winner.data).getD ""
  if found = "" then responses.headD "" else found

/-- The data a voting round resolves to. -/
structure VotingRound where
  responses : List String
  tally : List (String × Nat)
  winnerKey : String
  winCount : Nat
  best : String

/-- One self-consistency voting round over the per-path results (source
lines 740-826). -/
def runVoting (results : List PathResult) : VotingRound :=
  let responses := responsesOf results
  let tally := tallyOf responses
  let w := pickWinner (jsEntries tally)
  { responses := responses
    tally := tally
    winnerKey := w.1
    winCount := w.2
    best := bestResponse responses w.1 }

/-- `const agreementPercentage = (highestCount / SELF_CONSISTENCY_PATHS) *
100` (source line 812): the denominator is the requested number of paths,
i.e. the length of the per-path result list, not the number of successes. -/
def agreementPercentage (results : List PathResult) : ℚ :=
  ((runVoting results).winCount : ℚ) / (results.length : ℚ) * 100

/-- JavaScript `Math.round` for the non-negative values used here: round
half up. -/
def jsRound (q : ℚ) : ℤ := ⌊q + 1 / 2⌋

/-- The rounded percentage printed in the self-consistency summary
(`${Math.round(agreementPercentage)}% agreement`, source line 848). -/
def summaryAgreementPct (results : List PathResult) : ℤ :=
  jsRound (agreementPercentage results)

/-- Whether the round resolves to the "No valid responses received." error
message instead of a winning completion (source lines 828 and 875-888):
the error branch is taken exactly when `bestResponse` is falsy. -/
def surfacedNoValidResponses (results : List PathResult) : Bool :=
  (runVoting results).best = ""

/-- Events observable while the voting loop runs. -/
inductive PathEvent where
  | dispatch : Nat → ℚ → PathEvent
  | settled : Nat → PathEvent
deriving DecidableEq

/-- `temperature: TEMPERATURE + 0.2` of the base payload (source line 722). -/
def basePayloadTemp (t : ℚ) : ℚ := t + 0.2

/-- `temperature: basePayload.temperature + (i * 0.05)` of the per-path
payload (source line 748). -/
def pathPayloadTemp (t : ℚ) (i : Nat) : ℚ := basePayloadTemp t + (i : ℚ) * 0.05

/-- Trace of the voting loop starting at path index `i` with `n` iterations
left: each iteration dispatches its request and awaits it (settled =
completed or failed) before the next iteration begins, mirroring the
`await fetch` inside the sequential `for` loop (source lines 740-798). -/
def voteTraceAux (t : ℚ) : Nat → Nat → List PathEvent
  | _, 0 => []
  | i, n + 1 =>
    PathEvent.dispatch i (pathPayloadTemp t i) :: PathEvent.settled i ::
      voteTraceAux t (i + 1) n

/-- The full event trace of one voting round with base temperature `t`. -/
def voteTrace (t : ℚ) (paths : Nat) : List PathEvent :=
  voteTraceAux t 0 paths

/-- Written after the words of the spec, for comparison with the code's
pipeline: `agreementPercentage = round(winningCount / paths * 100)`. -/
def specAgreementPct (winningCount paths : Nat) : ℤ :=
  jsRound ((winningCount : ℚ) / (paths : ℚ) * 100)

/-- No two adjacent spaces anywhere in the character list. -/
def noTwoSpaces : List Char → Bool
  | a :: b :: t => !(a = ' ' && b = ' ') && noTwoSpaces (b :: t)
  | _ => true

/-- Every collapsing-class character occurring in the list is a plain
space (the shape of `collapseAux` output). -/
def goodPunct (z : List Char) : Prop :=
  ∀ c ∈ z, isPunctSpace c = true → c = ' '

/-- The first character, if any, is not JavaScript whitespace. -/
def headNoSpace (z : List Char) : Prop :=
  ∀ c, z.head? = some c → isJsSpace c = false

/-- The last character, if any, is not JavaScript whitespace. -/
def lastNoSpace (z : List Char) : Prop :=
  ∀ c, z.getLast? = some c → isJsSpace c = false

end CODV2

namespace CODV2

theorem startsWithCI_append (p x : List Char) (h : ∀ c ∈ p, jsToLower c = c) :
    startsWithCI (p ++ x) p = some x := by
  induction p with
  | nil => rw [List.nil_append]; cases x <;> rfl
  | cons c cs ih =>
      rw [List.cons_append, startsWithCI,
        if_pos (h c (List.mem_cons_self c cs))]
      exact ih fun d hd => h d (List.mem_cons_of_mem c hd)

theorem splitAtMarker_eq_none (cs : List Char)
    (h : containsSub cs (("####").data) = false) : splitAtMarker cs = none := by
  induction cs with
  | nil => rfl
  | cons c t ih =>
      rw [containsSub, Bool.or_eq_false_iff] at h
      obtain ⟨h1, h2⟩ := h
      rw [splitAtMarker, if_neg (by simp_all), ih h2]

/-- Claim C9: under the `cod` method, a raw completion that does not
contain the separator marker is segmented without failure into no thinking
segment and the entire text as the answer. -/
theorem claim_C9_thm (raw : String) (h1 : raw ≠ (""))
    (h2 : containsSub raw.data (("####").data) = false) :
    processBotMessageCod raw = ⟨none, some raw⟩ := by
  rw [processBotMessageCod, if_neg h1, splitAtMarker_eq_none raw.data h2]

/-- Witness for C9 at the spec's own example: segmenting
`"No separator here"` yields no thinking and the whole text as answer. -/
theorem claim_C9_witness :
    ("No separator here" : String) ≠ ("") ∧
      containsSub ("No separator here").data (("####").data) = false ∧
      processBotMessageCod ("No separator here") =
        ⟨none, some ("No separator here")⟩ :=
  ⟨by decide, by decide, claim_C9_thm ("No separator here") (by decide)
    (by decide)⟩

/-- Claim C4 counterexample: `normalize("the answer is 8.")` is
`"the answer is 8"`, not `"8"`: the filler phrase is not stripped because
the source's prefix regex requires a colon right after the phrase. -/
theorem claim_C4_cex :
    normalizeAnswer ("the answer is 8.") ≠ ("8") ∧
      normalizeAnswer ("the answer is 8.") = ("the answer is 8") := by decide

/-- Claim C4 (amended): a leading filler phrase is removed only when it is
followed immediately by a colon (then optional whitespace); with the colon
present the example normalizes to the voting key `"8"`. -/
theorem claim_C4_thm :
    (∀ rest : List Char,
        stripFiller ((("the answer is:").data) ++ rest) =
          rest.dropWhile isJsSpace) ∧
      normalizeAnswer ("the answer is: 8.") = ("8") := by
  constructor
  · intro rest
    have e : (("the answer is:").data) ++ rest =
        (("the answer is").data) ++ (':' :: rest) := by
      simp [List.append_assoc]
    have hm : startsWithCI ((("the answer is").data) ++ (':' :: rest))
        (("the answer is").data) = some (':' :: rest) :=
      startsWithCI_append _ _ (by decide)
    rw [e, stripFiller, fillerPhrases, stripFillerAux, hm]
    simp
  · decide

/-- Claim C2: the reported agreement percentage is
`round(winningCount / paths * 100)` with the requested path count as the
denominator; in the concrete three-path round where two paths answer `8`
and one fails, the agreement count is 2 and the reported percentage 67. -/
theorem claim_C2_thm :
    (∀ results : List PathResult,
        summaryAgreementPct results =
          specAgreementPct (runVoting results).winCount results.length) ∧
      (runVoting [some ("#### 8"), some ("#### 8."), none]).winCount = 2 ∧
      summaryAgreementPct [some ("#### 8"), some ("#### 8."), none] = 67 := by
  refine ⟨fun results => rfl, by decide, ?_⟩
  have h : (runVoting [some ("#### 8"), some ("#### 8."), none]).winCount = 2 :=
    by decide
  simp only [summaryAgreementPct, agreementPercentage, jsRound, h,
    List.length_cons, List.length_nil]
  rw [show (((2 : ℕ) : ℚ) / ((0 + 1 + 1 + 1 : ℕ) : ℚ) * 100 + 1 / 2 : ℚ) =
      403 / 6 by push_cast; ring]
  rw [Int.floor_eq_iff]
  norm_num

theorem voteTraceAux_get (t : ℚ) :
    ∀ (n s k : Nat), k < n →
      (voteTraceAux t s n).get? (2 * k) =
          some (PathEvent.dispatch (s + k) (pathPayloadTemp t (s + k))) ∧
        (voteTraceAux t s n).get? (2 * k + 1) =
          some (PathEvent.settled (s + k)) := by
  intro n
  induction n with
  | zero => intro s k hk; omega
  | succ n ih =>
      intro s k hk
      match k with
      | 0 => simp [voteTraceAux]
      | k + 1 =>
          have h2 : 2 * (k + 1) = 2 * k + 1 + 1 := by ring
          have h3 : s + (k + 1) = (s + 1) + k := by ring
          have := ih (s + 1) k (by omega)
          rw [h2, h3, voteTraceAux]
          simpa using this

/-- Claim C5: the `i`-th generation request of a voting round with base
temperature `t` is dispatched with temperature exactly
`t + 0.2 + i * 0.05`. -/
theorem claim_C5_thm (t : ℚ) (paths i : Nat) (h : i < paths) :
    (voteTrace t paths).get? (2 * i) =
      some (PathEvent.dispatch i (t + 0.2 + (i : ℚ) * 0.05)) := by
  have := (voteTraceAux_get t paths 0 i h).1
  simpa [voteTrace, pathPayloadTemp, basePayloadTemp] using this

/-- Witness for C5: with base temperature 7/10 and three paths, path 2 is
dispatched at temperature 7/10 + 0.2 + 2·0.05 = 1. -/
theorem claim_C5_witness :
    (2 < 3) ∧
      (voteTrace ((7 : ℚ) / 10) 3).get? (2 * 2) =
        some (PathEvent.dispatch 2 ((7 : ℚ) / 10 + 0.2 + ((2 : ℕ) : ℚ) * 0.05)) :=
  ⟨by norm_num, claim_C5_thm ((7 : ℚ) / 10) 3 2 (by norm_num)⟩

/-- Claim C8: the voting loop is sequential: for every path index
`i ≥ 1`, the settlement (completion or failure) of path `i - 1` occurs at
an earlier trace position than the dispatch of path `i`. -/
theorem claim_C8_thm (t : ℚ) (paths i : Nat) (h1 : 0 < i) (h2 : i < paths) :
    2 * (i - 1) + 1 < 2 * i ∧
      (voteTrace t paths).get? (2 * (i - 1) + 1) =
        some (PathEvent.settled (i - 1)) ∧
      (voteTrace t paths).get? (2 * i) =
        some (PathEvent.dispatch i (pathPayloadTemp t i)) := by
  refine ⟨by omega, ?_, ?_⟩
  · have := (voteTraceAux_get t paths 0 (i - 1) (by omega)).2
    simpa using this
  · have := (voteTraceAux_get t paths 0 i h2).1
    simpa using this

theorem runVoting_responses (results : List PathResult) :
    (runVoting results).responses = responsesOf results := rfl

theorem runVoting_tally (results : List PathResult) :
    (runVoting results).tally = tallyOf (responsesOf results) := rfl

theorem runVoting_winnerKey (results : List PathResult) :
    (runVoting results).winnerKey =
      (pickWinner (jsEntries (tallyOf (responsesOf results)))).1 := rfl

theorem runVoting_winCount (results : List PathResult) :
    (runVoting results).winCount =
      (pickWinner (jsEntries (tallyOf (responsesOf results)))).2 := rfl

theorem runVoting_best (results : List PathResult) :
    (runVoting results).best =
      bestResponse (responsesOf results)
        (pickWinner (jsEntries (tallyOf (responsesOf results)))).1 := rfl

theorem pickFold_spec (es : List (String × Nat)) :
    ∀ acc : String × Nat,
      (es.foldl (fun a e => if e.2 > a.2 then e else a) acc = acc ∧
          ∀ p ∈ es, p.2 ≤ acc.2) ∨
        ∃ i p, es.get? i = some p ∧
          es.foldl (fun a e => if e.2 > a.2 then e else a) acc = p ∧
          acc.2 < p.2 ∧ (∀ q ∈ es, q.2 ≤ p.2) ∧
          ∀ j q, j < i → es.get? j = some q → q.2 < p.2 := by
  induction es with
  | nil => intro acc; left; exact ⟨rfl, by simp⟩
  | cons e es ih =>
      intro acc
      rw [List.foldl_cons]
      by_cases hb : e.2 > acc.2
      · rw [if_pos hb]
        rcases ih e with ⟨heq, hle⟩ | ⟨i, p, hget, heq, hlt, hmax, hbefore⟩
        · right
          refine ⟨0, e, rfl, heq, hb, ?_, fun j q hj _ => absurd hj (by omega)⟩
          intro q hq
          rcases List.mem_cons.mp hq with h | h
          · exact h ▸ le_refl _
          · exact hle q h
        · right
          refine ⟨i + 1, p, by simpa using hget, heq, lt_trans hb hlt, ?_, ?_⟩
          · intro q hq
            rcases List.mem_cons.mp hq with h | h
            · exact h ▸ le_of_lt hlt
            · exact hmax q h
          · intro j q hj hget'
            match j with
            | 0 =>
                have : e = q := by simpa using hget'
                exact this ▸ hlt
            | j + 1 => exact hbefore j q (by omega) (by simpa using hget')
      · rw [if_neg hb]
        have hb' : e.2 ≤ acc.2 := Nat.le_of_not_lt hb
        rcases ih acc with ⟨heq, hle⟩ | ⟨i, p, hget, heq, hlt, hmax, hbefore⟩
        · left
          refine ⟨heq, ?_⟩
          intro q hq
          rcases List.mem_cons.mp hq with h | h
          · exact h ▸ hb'
          · exact hle q h
        · right
          refine ⟨i + 1, p, by simpa using hget, heq, hlt, ?_, ?_⟩
          · intro q hq
            rcases List.mem_cons.mp hq with h | h
            · exact h ▸ le_of_lt (lt_of_le_of_lt hb' hlt)
            · exact hmax q h
          · intro j q hj hget'
            match j with
            | 0 =>
                have : e = q := by simpa using hget'
                exact this ▸ lt_of_le_of_lt hb' hlt
            | j + 1 => exact hbefore j q (by omega) (by simpa using hget')

theorem mem_insertAsc {q p : String × Nat} :
    ∀ {l : List (String × Nat)}, q ∈ insertAsc p l → q = p ∨ q ∈ l := by
  intro l
  induction l with
  | nil => intro h; simp [insertAsc] at h; exact Or.inl h
  | cons r rs ih =>
      intro h
      rw [insertAsc] at h
      by_cases hle : digitsVal p.1 ≤ digitsVal r.1
      · rw [if_pos hle] at h
        rcases List.mem_cons.mp h with h | h
        · exact Or.inl h
        · exact Or.inr h
      · rw [if_neg hle] at h
        rcases List.mem_cons.mp h with h | h
        · exact Or.inr (h ▸ List.mem_cons_self r rs)
        · rcases ih h with h | h
          · exact Or.inl h
          · exact Or.inr (List.mem_cons_of_mem r h)

theorem mem_sortAsc {q : String × Nat} :
    ∀ {l : List (String × Nat)}, q ∈ sortAsc l → q ∈ l := by
  intro l
  induction l with
  | nil => intro h; simp [sortAsc] at h
  | cons p ps ih =>
      intro h
      rw [sortAsc] at h
      rcases mem_insertAsc h with h | h
      · exact h ▸ List.mem_cons_self p ps
      · exact List.mem_cons_of_mem p (ih h)

theorem jsEntries_subset {q : String × Nat} {t : List (String × Nat)}
    (h : q ∈ jsEntries t) : q ∈ t := by
  rw [jsEntries] at h
  rcases List.mem_append.mp h with h | h
  · exact (List.mem_filter.mp (mem_sortAsc h)).1
  · exact (List.mem_filter.mp h).1

theorem bump_pos {t : List (String × Nat)} {k : String}
    (h : ∀ q ∈ t, 1 ≤ q.2) : ∀ q ∈ bump t k, 1 ≤ q.2 := by
  intro q hq
  rw [bump] at hq
  by_cases hc : t.any fun p => p.1 = k
  · rw [if_pos hc] at hq
    obtain ⟨p, hp, hpq⟩ := List.mem_map.mp hq
    by_cases hk : p.1 = k
    · rw [if_pos hk] at hpq
      rw [← hpq]
      simp
    · rw [if_neg hk] at hpq
      exact hpq ▸ h p hp
  · rw [if_neg hc] at hq
    rcases List.mem_append.mp hq with hq | hq
    · exact h q hq
    · simp at hq
      rw [hq]

theorem tally_foldl_pos (rs : List String) :
    ∀ t : List (String × Nat), (∀ q ∈ t, 1 ≤ q.2) →
      ∀ q ∈ rs.foldl
          (fun t r =>
            let fa := finalAnswerOf r
            if fa = "" then t else bump t (normalizeAnswer fa)) t,
        1 ≤ q.2 := by
  induction rs with
  | nil => intro t ht q hq; exact ht q hq
  | cons r rs ih =>
      intro t ht q hq
      rw [List.foldl_cons] at hq
      refine ih _ ?_ q hq
      by_cases hf : finalAnswerOf r = ("")
      · simpa [hf] using ht
      · simpa [hf] using bump_pos ht

theorem tallyOf_pos {rs : List String} {q : String × Nat}
    (h : q ∈ tallyOf rs) : 1 ≤ q.2 := by
  rw [tallyOf] at h
  exact tally_foldl_pos rs [] (by simp) q h

/-- Claim C1 counterexample: normalized answers arrive as `"9"` (path 0)
then `"8"` (path 1); both keys tie at one vote and `"9"` is first seen,
yet the winner is `"8"`, because `Object.entries` enumerates integer-like
tally keys in ascending numeric order rather than insertion order. -/
theorem claim_C1_cex :
    (runVoting [some ("#### 9"), some ("#### 8")]).tally =
        [(("9"), 1), (("8"), 1)] ∧
      (runVoting [some ("#### 9"), some ("#### 8")]).winnerKey ≠ ("9") ∧
      (runVoting [some ("#### 9"), some ("#### 8")]).winnerKey = ("8") := by
  decide

/-- Claim C1 (amended): the winning tally key is the one with the strictly
highest vote count; ties are broken by the tally object's enumeration
order (canonical array-index keys in ascending numeric order first, then
the remaining keys in insertion order): the winner is the first entry of
that enumeration attaining the maximum count. -/
theorem claim_C1_thm (results : List PathResult) :
    (jsEntries (runVoting results).tally = [] ∧
        (runVoting results).winnerKey = ("") ∧
        (runVoting results).winCount = 0) ∨
      ∃ i, (jsEntries (runVoting results).tally).get? i =
            some ((runVoting results).winnerKey, (runVoting results).winCount) ∧
          (∀ p ∈ jsEntries (runVoting results).tally,
            p.2 ≤ (runVoting results).winCount) ∧
          ∀ j p, j < i →
            (jsEntries (runVoting results).tally).get? j = some p →
              p.2 < (runVoting results).winCount := by
  simp only [runVoting_tally, runVoting_winnerKey, runVoting_winCount]
  have hpos : ∀ q ∈ jsEntries (tallyOf (responsesOf results)), 1 ≤ q.2 :=
    fun q hq => tallyOf_pos (jsEntries_subset hq)
  unfold pickWinner
  rcases pickFold_spec (jsEntries (tallyOf (responsesOf results))) (("", 0))
    with ⟨heq, hle⟩ | ⟨i, p, hget, heq, _, hmax, hbefore⟩
  · left
    rw [heq]
    refine ⟨?_, rfl, rfl⟩
    cases hcase : jsEntries (tallyOf (responsesOf results)) with
    | nil => rfl
    | cons q qs =>
        exfalso
        have h1 := hle q (by rw [hcase]; exact List.mem_cons_self q qs)
        have h2 := hpos q (by rw [hcase]; exact List.mem_cons_self q qs)
        omega
  · right
    rw [heq]
    exact ⟨i, hget, hmax, hbefore⟩

/-- Witness for C8: with two paths, the settlement of path 0 sits at trace
position 1, before the dispatch of path 1 at position 2. -/
theorem claim_C8_witness :
    2 * (1 - 1) + 1 < 2 * 1 ∧
      (voteTrace ((1 : ℚ) / 2) 2).get? (2 * (1 - 1) + 1) =
        some (PathEvent.settled (1 - 1)) ∧
      (voteTrace ((1 : ℚ) / 2) 2).get? (2 * 1) =
        some (PathEvent.dispatch 1 (pathPayloadTemp ((1 : ℚ) / 2) 1)) :=
  claim_C8_thm ((1 : ℚ) / 2) 2 1 (by norm_num) (by norm_num)

theorem jsToLower_cases (c : Char) :
    jsToLower c = c ∨ ∃ p ∈ ucMap, p.1 = c ∧ jsToLower c = p.2 := by
  rcases e : ucMap.find? (fun p => p.1 = c) with _ | p
  · left
    rw [jsToLower, e]
    rfl
  · right
    refine ⟨p, List.mem_of_find?_eq_some e, ?_, ?_⟩
    · have := List.find?_some e
      simpa using this
    · rw [jsToLower, e]
      rfl

theorem ucMap_facts :
    ∀ p ∈ ucMap, isPunctSpace p.1 = false ∧ isPunctSpace p.2 = false ∧
      isJsSpace p.1 = false ∧ isJsSpace p.2 = false ∧
      jsToLower p.2 = p.2 ∧ ¬p.2 = ' ' := by decide

theorem jsToLower_punct (c : Char) :
    isPunctSpace (jsToLower c) = isPunctSpace c := by
  rcases jsToLower_cases c with h | ⟨p, hp, h1, h2⟩
  · rw [h]
  · rw [h2, ← h1]
    rw [(ucMap_facts p hp).1, (ucMap_facts p hp).2.1]

theorem jsToLower_space (c : Char) :
    isJsSpace (jsToLower c) = isJsSpace c := by
  rcases jsToLower_cases c with h | ⟨p, hp, h1, h2⟩
  · rw [h]
  · rw [h2, ← h1]
    rw [(ucMap_facts p hp).2.2.1, (ucMap_facts p hp).2.2.2.1]

theorem jsToLower_idem (c : Char) : jsToLower (jsToLower c) = jsToLower c := by
  rcases jsToLower_cases c with h | ⟨p, hp, _, h2⟩
  · rw [h, h]
  · rw [h2, (ucMap_facts p hp).2.2.2.2.1]

theorem jsToLower_to_space {c : Char} (h : jsToLower c = ' ') : c = ' ' := by
  rcases jsToLower_cases c with h' | ⟨p, hp, _, h2⟩
  · rw [← h', h]
  · rw [h2] at h
    exact absurd h (ucMap_facts p hp).2.2.2.2.2

theorem noTwoSpaces_iff (a : Char) (z : List Char) :
    noTwoSpaces (a :: z) = true ↔
      ((∀ d, z.head? = some d → ¬(a = ' ' ∧ d = ' ')) ∧
        noTwoSpaces z = true) := by
  cases z with
  | nil => simp [noTwoSpaces]
  | cons b t =>
      rw [noTwoSpaces]
      constructor
      · intro h
        rw [Bool.and_eq_true] at h
        refine ⟨?_, h.2⟩
        intro d hd hab
        have hdb : d = b := by
          have := hd
          simp at this
          exact this.symm
        have hb : b = ' ' := by rw [← hdb]; exact hab.2
        have h1 := h.1
        rw [hab.1, hb] at h1
        simp at h1
      · intro ⟨h1, h2⟩
        rw [Bool.and_eq_true]
        refine ⟨?_, h2⟩
        by_cases ha : a = ' '
        · by_cases hb : b = ' '
          · exact absurd ⟨ha, hb⟩ (h1 b rfl)
          · simp [hb]
        · simp [ha]

theorem collapseAux_goodPunct (s : List Char) :
    ∀ b, goodPunct (collapseAux b s) := by
  induction s with
  | nil => intro b c hc; rw [collapseAux] at hc; simp at hc
  | cons a t ih =>
      intro b
      rw [collapseAux]
      by_cases hp : isPunctSpace a = true
      · rw [if_pos hp]
        cases b
        · rw [if_neg (by simp)]
          intro c hc hpc
          rcases List.mem_cons.mp hc with h | h
          · exact h
          · exact ih true c h hpc
        · rw [if_pos rfl]
          exact ih true
      · rw [if_neg hp]
        intro c hc hpc
        rcases List.mem_cons.mp hc with h | h
        · rw [h] at hpc; exact absurd hpc (by simp [hp])
        · exact ih false c h hpc

theorem collapseAux_true_head (s : List Char) :
    ∀ c, (collapseAux true s).head? = some c → isPunctSpace c = false := by
  induction s with
  | nil => intro c hc; rw [collapseAux] at hc; simp at hc
  | cons a t ih =>
      intro c hc
      rw [collapseAux] at hc
      by_cases hp : isPunctSpace a = true
      · rw [if_pos hp, if_pos rfl] at hc
        exact ih c hc
      · rw [if_neg hp] at hc
        have : a = c := by simpa using hc
        rw [← this]
        simpa using hp

theorem collapseAux_noTwo (s : List Char) :
    ∀ b, noTwoSpaces (collapseAux b s) = true := by
  induction s with
  | nil => intro b; rw [collapseAux]; rfl
  | cons a t ih =>
      intro b
      rw [collapseAux]
      by_cases hp : isPunctSpace a = true
      · rw [if_pos hp]
        cases b
        · rw [if_neg (by simp)]
          rw [noTwoSpaces_iff]
          refine ⟨?_, ih true⟩
          intro d hd hab
          have := collapseAux_true_head t d hd
          rw [hab.2] at this
          simp [isPunctSpace, isJsSpace] at this
        · rw [if_pos rfl]
          exact ih true
      · rw [if_neg hp]
        rw [noTwoSpaces_iff]
        refine ⟨?_, ih false⟩
        intro d _ hab
        rw [hab.1] at hp
        simp [isPunctSpace, isJsSpace] at hp

theorem collapse_id (z : List Char) (hg : goodPunct z)
    (hnt : noTwoSpaces z = true) :
    collapseAux false z = z ∧
      ((∀ c, z.head? = some c → ¬c = ' ') → collapseAux true z = z) := by
  induction z with
  | nil => exact ⟨rfl, fun _ => rfl⟩
  | cons a t ih =>
      have hg' : goodPunct t := fun c hc => hg c (List.mem_cons_of_mem _ hc)
      have hnt' : noTwoSpaces t = true := ((noTwoSpaces_iff a t).mp hnt).2
      have hhd := ((noTwoSpaces_iff a t).mp hnt).1
      obtain ⟨ihf, iht⟩ := ih hg' hnt'
      constructor
      · by_cases hp : isPunctSpace a = true
        · have ha : a = ' ' := hg a (List.mem_cons_self a t) hp
          rw [collapseAux, if_pos hp, if_neg (by simp)]
          rw [ha]
          congr 1
          refine iht ?_
          intro c hc hcs
          exact hhd c hc ⟨ha, hcs⟩
        · rw [collapseAux, if_neg hp]
          congr 1
      · intro hhead
        by_cases hp : isPunctSpace a = true
        · exact absurd (hg a (List.mem_cons_self a t) hp)
            (hhead a rfl)
        · rw [collapseAux, if_neg hp]
          congr 1

theorem containsSub_nil_left (needle : List Char) :
    containsSub [] needle = needle.isEmpty := rfl

theorem containsSub_nil_right (l : List Char) : containsSub l [] = true := by
  cases l with
  | nil => rfl
  | cons c t => rw [containsSub]; simp [List.isPrefixOf]

theorem tally_foldl_skip (rs : List String)
    (h : ∀ r ∈ rs, finalAnswerOf r = ("")) :
    ∀ t : List (String × Nat),
      rs.foldl
        (fun t r =>
          let fa := finalAnswerOf r
          if fa = "" then t else bump t (normalizeAnswer fa)) t = t := by
  induction rs with
  | nil => intro t; rfl
  | cons r rs ih =>
      intro t
      rw [List.foldl_cons]
      have hr : finalAnswerOf r = "" := h r (List.mem_cons_self r rs)
      have hstep :
          (let fa := finalAnswerOf r
            if fa = "" then t else bump t (normalizeAnswer fa)) = t := by
        rw [hr]; simp
      rw [hstep]
      exact ih (fun r hr' => h r (List.mem_cons_of_mem _ hr')) t

theorem find?_first {α : Type} (p : α → Bool) :
    ∀ (l : List α) (x : α), l.find? p = some x →
      ∃ i, l.get? i = some x ∧ p x = true ∧
        ∀ j y, j < i → l.get? j = some y → p y = false := by
  intro l
  induction l with
  | nil => intro x h; simp [List.find?] at h
  | cons a t ih =>
      intro x h
      by_cases ha : p a = true
      · rw [List.find?_cons_of_pos _ ha] at h
        have hax : a = x := by simpa using h
        exact ⟨0, by simp [hax], hax ▸ ha,
          fun j y hj _ => absurd hj (by omega)⟩
      · rw [List.find?_cons_of_neg _ (by simpa using ha)] at h
        obtain ⟨i, hget, hx, hbefore⟩ := ih x h
        refine ⟨i + 1, by simpa using hget, hx, ?_⟩
        intro j y hj hget'
        match j with
        | 0 =>
            have : a = y := by simpa using hget'
            simpa [← this] using ha
        | j + 1 => exact hbefore j y (by omega) (by simpa using hget')

theorem bestResponse_empty_iff (rs : List String) (w : String) :
    bestResponse rs w = ("") ↔
      (rs = [] ∨ (rs.head? = some ("") ∧
        (w = ("") ∨ ∀ r ∈ rs, containsSub r.data w.data = false))) := by
  cases rs with
  | nil => simp [bestResponse, List.find?]
  | cons r0 rest =>
      by_cases hw : w = ("")
      · subst hw
        have hfind : (r0 :: rest).find?
            (fun r => containsSub r.data (("" : String)).data) = some r0 :=
          List.find?_cons_of_pos _ (containsSub_nil_right _)
        constructor
        · intro hb
          rw [bestResponse, hfind] at hb
          by_cases h0 : r0 = ("")
          · exact Or.inr ⟨by simp [h0], Or.inl rfl⟩
          · simp only [Option.getD_some] at hb
            rw [if_neg h0] at hb
            exact absurd hb h0
        · intro h
          rcases h with h | ⟨hh, _⟩
          · simp at h
          · have h0 : r0 = ("") := by simpa using hh
            rw [bestResponse, hfind]
            simp [h0]
      · rcases hfind : (r0 :: rest).find?
            (fun r => containsSub r.data w.data) with _ | f
        · have hnone := List.find?_eq_none.mp hfind
          constructor
          · intro hb
            rw [bestResponse, hfind] at hb
            simp at hb
            refine Or.inr ⟨by simp [hb], Or.inr fun r hr => ?_⟩
            simpa using hnone r hr
          · intro h
            rcases h with h | ⟨hh, _⟩
            · simp at h
            · have h0 : r0 = ("") := by simpa using hh
              rw [bestResponse, hfind]
              simp [h0]
        · have hpf : containsSub f.data w.data = true := by
            have := List.find?_some hfind
            simpa using this
          have hf : f ≠ ("") := by
            intro h
            rw [h] at hpf
            rw [containsSub_nil_left] at hpf
            exact hw (String.ext (by simpa using hpf))
          constructor
          · intro hb
            rw [bestResponse, hfind] at hb
            simp only [Option.getD_some] at hb
            rw [if_neg hf] at hb
            exact absurd hb hf
          · intro h
            rcases h with h | ⟨hh, hor⟩
            · simp at h
            · rcases hor with h' | hall
              · exact absurd h' hw
              · have := hall f (List.mem_of_find?_eq_some hfind)
                rw [hpf] at this
                exact absurd this (by simp)

theorem surfaced_iff (results : List PathResult) :
    surfacedNoValidResponses results = true ↔
      (runVoting results).best = ("") := by
  rw [surfacedNoValidResponses]
  exact decide_eq_true_iff

/-- Claim C3 counterexample: path 0 produces content (the truthy
whitespace string), so not every path failed, yet the round still resolves
to the "No valid responses received." error. -/
theorem claim_C3_cex :
    (some (" ") : PathResult) ≠ none ∧
      surfacedNoValidResponses [some (" "), none, none] = true := by decide

/-- Claim C3 (amended): a failed path records no vote and later paths
still run (deleting a failed path from the result list changes neither the
responses nor the tally); the "no valid responses" error is surfaced
exactly when either no path produced truthy content, or the first pushed
response trims to the empty string and no response contains the winning
key (in particular when the winning key itself is empty because no vote
was cast). -/
theorem claim_C3_thm :
    (∀ l1 l2 : List PathResult,
        responsesOf (l1 ++ none :: l2) = responsesOf (l1 ++ l2) ∧
          (runVoting (l1 ++ none :: l2)).tally =
            (runVoting (l1 ++ l2)).tally) ∧
      ∀ results : List PathResult,
        surfacedNoValidResponses results = true ↔
          ((runVoting results).responses = [] ∨
            ((runVoting results).responses.head? = some ("") ∧
              ((runVoting results).winnerKey = ("") ∨
                ∀ r ∈ (runVoting results).responses,
                  containsSub r.data (runVoting results).winnerKey.data =
                    false))) := by
  constructor
  · intro l1 l2
    have hresp : responsesOf (l1 ++ none :: l2) = responsesOf (l1 ++ l2) := by
      unfold responsesOf
      rw [List.filterMap_append, List.filterMap_append]
      congr 1
    refine ⟨hresp, ?_⟩
    rw [runVoting_tally, runVoting_tally, hresp]
  · intro results
    rw [surfaced_iff, runVoting_best, runVoting_responses, runVoting_winnerKey]
    exact bestResponse_empty_iff (responsesOf results)
      (pickWinner (jsEntries (tallyOf (responsesOf results)))).1

/-- Claim C6 counterexample: the winning key is `"8"`; the first
completion whose extracted answer contains `"8"` is the second one, but
the displayed completion is the first, whose extracted answer is `"9"`:
the code substring-matches the full original completion (thinking
included), not the extracted answer. -/
theorem claim_C6_cex :
    (runVoting [some ("8 #### 9"), some ("a #### 8"), some ("b #### 8")]).winnerKey
        = ("8") ∧
      (runVoting [some ("8 #### 9"), some ("a #### 8"), some ("b #### 8")]).best
        = ("8 #### 9") ∧
      finalAnswerOf ("8 #### 9") = ("9") ∧
      containsSub (("9")).data (("8")).data = false ∧
      finalAnswerOf ("a #### 8") = ("8") ∧
      containsSub (("8")).data (("8")).data = true := by decide

/-- Claim C6 (amended): when a winning completion is displayed, it is the
first original completion whose full raw text contains the winning
normalized key as a substring; if no completion's text contains the key,
the first completion overall is displayed. -/
theorem claim_C6_thm (results : List PathResult)
    (hbest : (runVoting results).best ≠ ("")) :
    (∃ i, (runVoting results).responses.get? i =
          some ((runVoting results).best) ∧
        containsSub ((runVoting results).best).data
          ((runVoting results).winnerKey).data = true ∧
        ∀ j r, j < i → (runVoting results).responses.get? j = some r →
          containsSub r.data ((runVoting results).winnerKey).data = false) ∨
      ((∀ r ∈ (runVoting results).responses,
          containsSub r.data ((runVoting results).winnerKey).data = false) ∧
        (runVoting results).responses.head? =
          some ((runVoting results).best)) := by
  rw [runVoting_best, runVoting_responses, runVoting_winnerKey] at *
  set rs := responsesOf results with hrsdef
  set w := (pickWinner (jsEntries (tallyOf (responsesOf results)))).1 with hwdef
  rcases hfind : rs.find? (fun r => containsSub r.data w.data) with _ | f
  · have hnone := List.find?_eq_none.mp hfind
    have hbest' : bestResponse rs w = rs.headD "" := by
      rw [bestResponse, hfind]
      simp
    right
    constructor
    · intro r hr
      simpa using hnone r hr
    · rw [hbest'] at hbest ⊢
      cases hcase : rs with
      | nil => rw [hcase] at hbest; simp at hbest
      | cons a l => simp
  · have hpf : containsSub f.data w.data = true := by
      have := List.find?_some hfind
      simpa using this
    by_cases hf : f = ("")
    · exfalso
      have hwkey : w = ("") := by
        rw [hf] at hpf
        rw [containsSub_nil_left] at hpf
        exact String.ext (by simpa using hpf)
      cases hcase : rs with
      | nil => rw [hcase] at hfind; simp [List.find?] at hfind
      | cons a l =>
          have hfa : rs.find? (fun r => containsSub r.data w.data) = some a := by
            rw [hcase]
            refine List.find?_cons_of_pos _ ?_
            rw [hwkey]
            exact containsSub_nil_right _
          have haf : f = a := by
            rw [hfa] at hfind
            simpa using hfind.symm
          apply hbest
          rw [bestResponse, hfind]
          simp only [Option.getD_some]
          rw [if_pos hf, hcase]
          rw [← haf, hf]
          rfl
    · have hbest' : bestResponse rs w = f := by
        rw [bestResponse, hfind]
        simp only [Option.getD_some]
        rw [if_neg hf]
      left
      obtain ⟨i, hget, hx, hbefore⟩ := find?_first _ rs f hfind
      refine ⟨i, by rw [hbest']; exact hget, by rw [hbest']; exact hx, ?_⟩
      intro j r hj hg
      exact hbefore j r hj hg

/-- Witness for C6: a round with one completion whose text contains its
own winning key displays that completion. -/
theorem claim_C6_witness :
    (runVoting [some ("x #### 8")]).best ≠ ("") ∧
      ((∃ i, (runVoting [some ("x #### 8")]).responses.get? i =
            some ((runVoting [some ("x #### 8")]).best) ∧
          containsSub ((runVoting [some ("x #### 8")]).best).data
            ((runVoting [some ("x #### 8")]).winnerKey).data = true ∧
          ∀ j r, j < i →
            (runVoting [some ("x #### 8")]).responses.get? j = some r →
            containsSub r.data
              ((runVoting [some ("x #### 8")]).winnerKey).data = false) ∨
        ((∀ r ∈ (runVoting [some ("x #### 8")]).responses,
            containsSub r.data
              ((runVoting [some ("x #### 8")]).winnerKey).data = false) ∧
          (runVoting [some ("x #### 8")]).responses.head? =
            some ((runVoting [some ("x #### 8")]).best))) :=
  ⟨by decide, claim_C6_thm [some ("x #### 8")] (by decide)⟩

/-- Claim C10 counterexample: path 1 returns the non-empty completion
`"####"`, every extracted answer is empty, yet the round resolves to the
error branch (nothing is displayed) because the first pushed response
trims to the empty string. -/
theorem claim_C10_cex :
    responsesOf [some (" "), some ("####")] = [(""), ("####")] ∧
      finalAnswerOf ("") = ("") ∧
      finalAnswerOf ("####") = ("") ∧
      surfacedNoValidResponses [some (" "), some ("####")] = true := by decide

/-- Claim C10 (amended): if every pushed response has an empty extracted
answer (so no votes are cast) and the first pushed response is non-empty,
the round resolves without error: the first response is displayed, the
agreement count is 0 and the agreement percentage is 0. -/
theorem claim_C10_thm (results : List PathResult) (r0 : String)
    (hall : ∀ r ∈ (runVoting results).responses, finalAnswerOf r = (""))
    (hhead : (runVoting results).responses.head? = some r0)
    (hr0 : r0 ≠ ("")) :
    (runVoting results).best = r0 ∧ (runVoting results).winCount = 0 ∧
      agreementPercentage results = 0 := by
  rw [runVoting_responses] at hall hhead
  have htally : tallyOf (responsesOf results) = [] := by
    rw [tallyOf]
    exact tally_foldl_skip _ hall []
  have hwin : pickWinner (jsEntries (tallyOf (responsesOf results))) =
      (("", 0)) := by
    rw [htally]; rfl
  obtain ⟨rs', hrs⟩ : ∃ rs', responsesOf results = r0 :: rs' := by
    cases hcase : responsesOf results with
    | nil => rw [hcase] at hhead; simp at hhead
    | cons a l =>
        rw [hcase] at hhead
        simp at hhead
        exact ⟨l, by rw [hhead]⟩
  have hwkey : (pickWinner (jsEntries (tallyOf (responsesOf results)))).1 =
      ("") := by rw [hwin]
  have hwcnt : (pickWinner (jsEntries (tallyOf (responsesOf results)))).2 =
      0 := by rw [hwin]
  refine ⟨?_, ?_, ?_⟩
  · rw [runVoting_best, hwkey, hrs, bestResponse]
    have hp : containsSub r0.data (("" : String)).data = true :=
      containsSub_nil_right _
    have hfind0 : (r0 :: rs').find?
        (fun r => containsSub r.data (("" : String)).data) = some r0 :=
      List.find?_cons_of_pos _ hp
    rw [hfind0]
    simp only [Option.getD_some]
    rw [if_neg hr0]
  · rw [runVoting_winCount, hwcnt]
  · rw [agreementPercentage, runVoting_winCount, hwcnt]
    norm_num

/-- Witness for C10: a single path returning `"x ####"` (empty extracted
answer) resolves without error, displaying that completion with agreement
count 0 and percentage 0. -/
theorem claim_C10_witness :
    (∀ r ∈ (runVoting [some ("x ####")]).responses,
        finalAnswerOf r = ("")) ∧
      (runVoting [some ("x ####")]).responses.head? = some ("x ####") ∧
      ("x ####" : String) ≠ ("") ∧
      ((runVoting [some ("x ####")]).best = ("x ####") ∧
        (runVoting [some ("x ####")]).winCount = 0 ∧
        agreementPercentage [some ("x ####")] = 0) :=
  ⟨by decide, by decide, by decide,
    claim_C10_thm [some ("x ####")] ("x ####") (by decide) (by decide)
      (by decide)⟩

theorem jsTrimRight_cons (a : Char) (t : List Char) :
    jsTrimRight (a :: t) =
      match jsTrimRight t with
      | [] => if isJsSpace a then [] else [a]
      | r => a :: r := rfl

theorem jsTrimRight_cons_nil {a : Char} {t : List Char}
    (e : jsTrimRight t = []) :
    jsTrimRight (a :: t) = if isJsSpace a then [] else [a] := by
  rw [jsTrimRight_cons, e]

theorem jsTrimRight_cons_cons {a b : Char} {t t2 : List Char}
    (e : jsTrimRight t = b :: t2) :
    jsTrimRight (a :: t) = a :: b :: t2 := by
  rw [jsTrimRight_cons, e]

theorem head?_jsTrimRight (z : List Char) :
    jsTrimRight z = [] ∨ (jsTrimRight z).head? = z.head? := by
  cases z with
  | nil => exact Or.inl rfl
  | cons a t =>
      rcases e : jsTrimRight t with _ | ⟨b, t2⟩
      · by_cases hs : isJsSpace a = true
        · exact Or.inl (by rw [jsTrimRight_cons_nil e, if_pos hs])
        · exact Or.inr (by rw [jsTrimRight_cons_nil e, if_neg hs]; rfl)
      · exact Or.inr (by rw [jsTrimRight_cons_cons e]; rfl)

theorem mem_jsTrimRight {c : Char} :
    ∀ {z : List Char}, c ∈ jsTrimRight z → c ∈ z := by
  intro z
  induction z with
  | nil => intro h; simp [jsTrimRight] at h
  | cons a t ih =>
      intro h
      rcases e : jsTrimRight t with _ | ⟨b, t2⟩
      · rw [jsTrimRight_cons_nil e] at h
        by_cases hs : isJsSpace a = true
        · rw [if_pos hs] at h; simp at h
        · rw [if_neg hs] at h
          simp at h
          exact h ▸ List.mem_cons_self a t
      · rw [jsTrimRight_cons_cons e] at h
        rcases List.mem_cons.mp h with h | h
        · exact h ▸ List.mem_cons_self a t
        · exact List.mem_cons_of_mem a (ih (e ▸ h))

theorem noTwo_jsTrimRight {z : List Char} (h : noTwoSpaces z = true) :
    noTwoSpaces (jsTrimRight z) = true := by
  induction z with
  | nil => exact h
  | cons a t ih =>
      have ht : noTwoSpaces t = true := ((noTwoSpaces_iff a t).mp h).2
      have hhd := ((noTwoSpaces_iff a t).mp h).1
      rcases e : jsTrimRight t with _ | ⟨b, t2⟩
      · rw [jsTrimRight_cons_nil e]
        by_cases hs : isJsSpace a = true
        · rw [if_pos hs]; rfl
        · rw [if_neg hs]; rfl
      · rw [jsTrimRight_cons_cons e]
        rw [noTwoSpaces_iff]
        refine ⟨?_, by rw [← e]; exact ih ht⟩
        intro d hd hab
        have hdb : d = b := by
          have := hd
          simp at this
          exact this.symm
        rcases head?_jsTrimRight t with h0 | h0
        · rw [h0] at e; exact absurd e (by simp)
        · rw [e] at h0
          have hb : t.head? = some b := by rw [← h0]; rfl
          refine hhd d ?_ hab
          rw [hb, hdb]

theorem lastNoSpace_jsTrimRight (z : List Char) :
    lastNoSpace (jsTrimRight z) := by
  induction z with
  | nil => intro c hc; simp [jsTrimRight] at hc
  | cons a t ih =>
      rcases e : jsTrimRight t with _ | ⟨b, t2⟩
      · rw [jsTrimRight_cons_nil e]
        by_cases hs : isJsSpace a = true
        · rw [if_pos hs]
          intro c hc; simp at hc
        · rw [if_neg hs]
          intro c hc
          simp at hc
          rw [hc] at hs
          simpa using hs
      · rw [jsTrimRight_cons_cons e]
        intro c hc
        rw [List.getLast?_cons_cons] at hc
        refine ih c ?_
        rw [e]
        exact hc

theorem jsTrimRight_id {z : List Char} (h : lastNoSpace z) :
    jsTrimRight z = z := by
  induction z with
  | nil => rfl
  | cons a t ih =>
      cases t with
      | nil =>
          have ha : isJsSpace a = false := h a rfl
          have e0 : jsTrimRight ([] : List Char) = [] := rfl
          rw [jsTrimRight_cons_nil e0, if_neg (by simp [ha])]
      | cons b t2 =>
          have h' : lastNoSpace (b :: t2) := by
            intro c hc
            refine h c ?_
            rw [List.getLast?_cons_cons]
            exact hc
          exact jsTrimRight_cons_cons (ih h')

theorem headNoSpace_jsTrimRight {z : List Char} (h : headNoSpace z) :
    headNoSpace (jsTrimRight z) := by
  rcases head?_jsTrimRight z with h0 | h0
  · rw [h0]; intro c hc; simp at hc
  · intro c hc
    rw [h0] at hc
    exact h c hc

theorem headNoSpace_dropWhile (z : List Char) :
    headNoSpace (z.dropWhile isJsSpace) := by
  induction z with
  | nil => intro c hc; simp at hc
  | cons a t ih =>
      rw [List.dropWhile_cons]
      by_cases hs : isJsSpace a = true
      · rw [if_pos (by simp [hs])]; exact ih
      · rw [if_neg (by simp [hs])]
        intro c hc
        simp at hc
        rw [← hc]
        simpa using hs

theorem mem_dropWhile {c : Char} {p : Char → Bool} :
    ∀ {z : List Char}, c ∈ z.dropWhile p → c ∈ z := by
  intro z
  induction z with
  | nil => intro h; simp at h
  | cons a t ih =>
      intro h
      rw [List.dropWhile_cons] at h
      by_cases hp : p a = true
      · rw [if_pos (by simp [hp])] at h
        exact List.mem_cons_of_mem a (ih h)
      · rw [if_neg (by simp [hp])] at h
        exact h

theorem noTwo_dropWhile {p : Char → Bool} :
    ∀ {z : List Char}, noTwoSpaces z = true →
      noTwoSpaces (z.dropWhile p) = true := by
  intro z
  induction z with
  | nil => intro h; exact h
  | cons a t ih =>
      intro h
      rw [List.dropWhile_cons]
      by_cases hp : p a = true
      · rw [if_pos (by simp [hp])]
        exact ih ((noTwoSpaces_iff a t).mp h).2
      · rw [if_neg (by simp [hp])]
        exact h

theorem dropWhile_id {z : List Char} (h : headNoSpace z) :
    z.dropWhile isJsSpace = z := by
  cases z with
  | nil => rfl
  | cons a t =>
      rw [List.dropWhile_cons, if_neg (by simp [h a rfl])]

theorem goodPunct_jsTrim {z : List Char} (h : goodPunct z) :
    goodPunct (jsTrim z) := by
  intro c hc
  exact h c (mem_dropWhile (mem_jsTrimRight hc))

theorem noTwo_jsTrim {z : List Char} (h : noTwoSpaces z = true) :
    noTwoSpaces (jsTrim z) = true :=
  noTwo_jsTrimRight (noTwo_dropWhile h)

theorem headNoSpace_jsTrim (z : List Char) : headNoSpace (jsTrim z) :=
  headNoSpace_jsTrimRight (headNoSpace_dropWhile z)

theorem lastNoSpace_jsTrim (z : List Char) : lastNoSpace (jsTrim z) :=
  lastNoSpace_jsTrimRight _

theorem jsTrim_id {z : List Char} (h1 : headNoSpace z) (h2 : lastNoSpace z) :
    jsTrim z = z := by
  rw [jsTrim, dropWhile_id h1, jsTrimRight_id h2]

theorem goodPunct_map {z : List Char} (h : goodPunct z) :
    goodPunct (z.map jsToLower) := by
  intro c hc hpc
  obtain ⟨d, hd, hdc⟩ := List.mem_map.mp hc
  rw [← hdc] at hpc ⊢
  rw [jsToLower_punct] at hpc
  rw [h d hd hpc]
  rfl

theorem noTwo_map : ∀ {z : List Char}, noTwoSpaces z = true →
    noTwoSpaces (z.map jsToLower) = true := by
  intro z
  induction z with
  | nil => intro h; exact h
  | cons a t ih =>
      intro h
      rw [List.map_cons, noTwoSpaces_iff]
      constructor
      · intro d hd hab
        have ha : a = ' ' := jsToLower_to_space hab.1
        cases t with
        | nil => simp at hd
        | cons b t2 =>
            have hdb : d = jsToLower b := by
              rw [List.map_cons] at hd
              simp at hd
              exact hd.symm
            have hb : b = ' ' := jsToLower_to_space (by rw [← hdb]; exact hab.2)
            exact ((noTwoSpaces_iff a (b :: t2)).mp h).1 b rfl ⟨ha, hb⟩
      · exact ih ((noTwoSpaces_iff a t).mp h).2

theorem headNoSpace_map {z : List Char} (h : headNoSpace z) :
    headNoSpace (z.map jsToLower) := by
  intro c hc
  rw [List.head?_map] at hc
  cases hz : z.head? with
  | none => rw [hz] at hc; simp at hc
  | some d =>
      rw [hz] at hc
      simp at hc
      rw [← hc, jsToLower_space]
      exact h d hz

theorem lastNoSpace_map {z : List Char} (h : lastNoSpace z) :
    lastNoSpace (z.map jsToLower) := by
  intro c hc
  rw [List.getLast?_map] at hc
  cases hz : z.getLast? with
  | none => rw [hz] at hc; simp at hc
  | some d =>
      rw [hz] at hc
      simp at hc
      rw [← hc, jsToLower_space]
      exact h d hz

theorem map_jsToLower_idem (z : List Char) :
    (z.map jsToLower).map jsToLower = z.map jsToLower := by
  rw [List.map_map]
  refine List.map_congr_left ?_
  intro a _
  exact jsToLower_idem a

theorem startsWithCI_sub :
    ∀ (s p r : List Char), startsWithCI s p = some r → ∃ pre, s = pre ++ r := by
  intro s
  induction s with
  | nil =>
      intro p r h
      cases p with
      | nil =>
          have : r = [] := (Option.some.inj h).symm
          exact ⟨[], by simp [this]⟩
      | cons q qs => simp [startsWithCI] at h
  | cons c cs ih =>
      intro p r h
      cases p with
      | nil =>
          have : r = c :: cs := (Option.some.inj h).symm
          exact ⟨[], by simp [this]⟩
      | cons q qs =>
          rw [startsWithCI] at h
          by_cases hq : jsToLower c = q
          · rw [if_pos hq] at h
            obtain ⟨pre, hpre⟩ := ih qs r h
            exact ⟨c :: pre, by rw [List.cons_append, ← hpre]⟩
          · rw [if_neg hq] at h
            simp at h

theorem stripFillerAux_none {s : List Char} (h : ∀ c ∈ s, ¬c = ':') :
    ∀ L, stripFillerAux L s = none := by
  intro L
  induction L with
  | nil => rfl
  | cons p ps ih =>
      rw [stripFillerAux]
      rcases e : startsWithCI s p with _ | r
      · exact ih
      · cases r with
        | nil => exact ih
        | cons c rest =>
            have hc : c ∈ s := by
              obtain ⟨pre, hpre⟩ := startsWithCI_sub s p (c :: rest) e
              rw [hpre]
              exact List.mem_append.mpr (Or.inr (List.mem_cons_self c rest))
            show (if c = ':' then some (List.dropWhile isJsSpace rest)
              else stripFillerAux ps s) = none
            rw [if_neg (h c hc)]
            exact ih

theorem stripFiller_id {z : List Char} (hg : goodPunct z) :
    stripFiller z = z := by
  have hcolon : ∀ c ∈ z, ¬c = ':' := by
    intro c hc habs
    have : isPunctSpace c = true := by rw [habs]; rfl
    have := hg c hc this
    rw [habs] at this
    simp at this
  rw [stripFiller, stripFillerAux_none hcolon]
  rfl

theorem normalizeAnswerL_idem_of (z : List Char)
    (h : removeUnits (normalizeAnswerL z) = normalizeAnswerL z) :
    normalizeAnswerL (normalizeAnswerL z) = normalizeAnswerL z := by
  have hgood : goodPunct (normalizeAnswerL z) :=
    goodPunct_map (goodPunct_jsTrim (collapseAux_goodPunct _ false))
  have hnt : noTwoSpaces (normalizeAnswerL z) = true :=
    noTwo_map (noTwo_jsTrim (collapseAux_noTwo _ false))
  have hhead : headNoSpace (normalizeAnswerL z) :=
    headNoSpace_map (headNoSpace_jsTrim _)
  have hlast : lastNoSpace (normalizeAnswerL z) :=
    lastNoSpace_map (lastNoSpace_jsTrim _)
  rw [normalizeAnswerL, stripFiller_id hgood, h,
    (collapse_id _ hgood hnt).1, jsTrim_id hhead hlast]
  show ((jsTrim (collapseAux false (removeUnits (stripFiller z)))).map
      jsToLower).map jsToLower =
    (jsTrim (collapseAux false (removeUnits (stripFiller z)))).map jsToLower
  exact map_jsToLower_idem _

/-- Claim C7 counterexample: `normalize` is not idempotent: removing the
unit token `$` from `"dol$lars"` glues the remaining letters into the unit
word `"dollars"`, which a second pass removes entirely. -/
theorem claim_C7_cex :
    normalizeAnswer (normalizeAnswer ("dol$lars")) ≠
        normalizeAnswer ("dol$lars") ∧
      normalizeAnswer ("dol$lars") = ("dollars") ∧
      normalizeAnswer ("dollars") = ("") := by decide

/-- Claim C7 (amended): `normalize` is idempotent on every input whose
normalized form is left unchanged by a second unit-removal pass; this is
the only way idempotence can fail, since the filler-phrase strip,
punctuation collapsing, trimming and lowercasing are all no-ops on a
normalized string. -/
theorem claim_C7_thm (s : String)
    (h : removeUnits (normalizeAnswer s).data = (normalizeAnswer s).data) :
    normalizeAnswer (normalizeAnswer s) = normalizeAnswer s := by
  have h' : removeUnits (normalizeAnswerL s.data) = normalizeAnswerL s.data := h
  show (⟨normalizeAnswerL (normalizeAnswer s).data⟩ : String) =
    ⟨normalizeAnswerL s.data⟩
  rw [show (normalizeAnswer s).data = normalizeAnswerL s.data from rfl]
  rw [normalizeAnswerL_idem_of s.data h']

/-- Witness for C7: the normalized form of `"the answer is: 8."` is `"8"`,
unit removal fixes it, and normalizing twice equals normalizing once. -/
theorem claim_C7_witness :
    removeUnits (normalizeAnswer ("the answer is: 8.")).data =
        (normalizeAnswer ("the answer is: 8.")).data ∧
      normalizeAnswer (normalizeAnswer ("the answer is: 8.")) =
        normalizeAnswer ("the answer is: 8.") :=
  ⟨by decide, claim_C7_thm ("the answer is: 8.") (by decide)⟩

end CODV2
